/-
Verification of the Personal Expense Tracker core (src/main.py) against its
natural-language specification.

The embedding is shallow:
  * the CSV file is a `State := Option (List (List String))` — `none` means the
    file does not exist, `some lines` is the decoded list of comma-separated
    lines (each a list of cell texts); the first line, when present, is the
    header line that `csv.DictReader` consumes;
  * Python `datetime.strptime(s, "%Y-%m-%d")` is `parseDate` (4-digit year,
    1–2 digit month/day, calendar-validated, `datetime` range `year ≥ 1`);
  * Python `float(s)` on the decimal literals this program stores is
    `parseFloat`, returning an exact rational (the spec's own note records
    that the source uses ordinary floating point; amounts are modelled
    exactly, as rationals, so the algebraic claims are about the summation
    structure, not about rounding);
  * exceptions are `Except Err` values;
  * all functions are executable and structurally recursive so that concrete
    inputs evaluate inside the kernel.
-/
import Mathlib

namespace ET

/-! ### Characters and digit strings -/

/-- Numeric value of a decimal digit character. -/
def charDigit (c : Char) : Nat := c.toNat - 48

/-- Value of a most-significant-first digit list: `natOfDigits [4,2] = 42`. -/
def natOfDigits : List Nat → Nat
  | [] => 0
  | d :: l => d * 10 ^ l.length + natOfDigits l

/-- Parse a non-empty all-digit character list to its numeric value. -/
def digitsVal? (l : List Char) : Option Nat :=
  if l.isEmpty then none
  else if l.all Char.isDigit then some (natOfDigits (l.map charDigit)) else none

/-- `String.splitOn "-"` on the underlying character list. -/
def splitOnDash : List Char → List (List Char)
  | [] => [[]]
  | c :: r =>
    if c = '-' then [] :: splitOnDash r
    else
      match splitOnDash r with
      | [] => [[c]]
      | f :: rest => (c :: f) :: rest

/-! ### Dates: `datetime.strptime(s, "%Y-%m-%d")` -/

/-- A parsed calendar date `(year, month, day)`. -/
abbrev Date := Nat × Nat × Nat

def isLeapYear (y : Nat) : Bool :=
  y % 4 == 0 && (y % 100 != 0 || y % 400 == 0)

def daysInMonth (y m : Nat) : Nat :=
  if m == 2 then (if isLeapYear y then 29 else 28)
  else if m == 4 || m == 6 || m == 9 || m == 11 then 30
  else 31

/-- Model of `datetime.strptime(s, "%Y-%m-%d")`: the format requires exactly
four year digits, one or two month digits in `1..12`, one or two day digits
valid for the (leap-aware) month, and `datetime` itself requires `year ≥ 1`.
Returns `none` exactly when `strptime` raises `ValueError`. -/
def parseDate (s : String) : Option Date :=
  match splitOnDash s.data with
  | [ys, ms, ds] =>
    match digitsVal? ys, digitsVal? ms, digitsVal? ds with
    | some y, some m, some d =>
      if ys.length = 4 ∧ 1 ≤ y ∧ ms.length ≤ 2 ∧ 1 ≤ m ∧ m ≤ 12 ∧
         ds.length ≤ 2 ∧ 1 ≤ d ∧ d ≤ daysInMonth y m
      then some (y, m, d) else none
    | _, _, _ => none
  | _ => none

/-- Comparison of two parsed dates, as Python's `datetime.__lt__` performs it:
lexicographic on the `(year, month, day)` fields. -/
def dateLtB (a b : Date) : Bool :=
  (a.1 < b.1 : Bool) ||
    ((a.1 == b.1) &&
      ((a.2.1 < b.2.1 : Bool) ||
        ((a.2.1 == b.2.1) && (a.2.2 < b.2.2 : Bool))))

/-- Chronological `≤` on parsed dates (strictly-before or equal). -/
def chronLeB (a b : Date) : Bool := dateLtB a b || decide (a = b)

/-! ### Amounts: `float(s)` on decimal literals -/

/-- Split at the first `.`, if any. -/
def splitOnDot : List Char → List Char × Option (List Char)
  | [] => ([], none)
  | c :: r =>
    if c = '.' then ([], some r)
    else
      let (a, b) := splitOnDot r
      (c :: a, b)

/-- Split at the first `e`/`E`, if any. -/
def splitOnExpChar : List Char → List Char × Option (List Char)
  | [] => ([], none)
  | c :: r =>
    if c = 'e' ∨ c = 'E' then ([], some r)
    else
      let (a, b) := splitOnExpChar r
      (c :: a, b)

/-- Strip one optional leading sign; returns `(isNegative, rest)`. -/
def parseSignChar : List Char → Bool × List Char
  | '-' :: r => (true, r)
  | '+' :: r => (false, r)
  | l => (false, l)

/-- Syntactic shape of an accepted decimal literal: sign, the mantissa digits
read as one integer, the number of digits after the point, and the exponent. -/
structure FloatRep where
  neg : Bool
  mantNum : Nat
  fracLen : Nat
  exp : ℤ
deriving DecidableEq, Repr

/-- Unsigned decimal mantissa: `"12"`, `"12."`, `"12.5"`, `".5"`.
Returns the digits as one integer together with the fraction length. -/
def parseMantissa (l : List Char) : Option (Nat × Nat) :=
  match splitOnDot l with
  | (ip, none) =>
    if ip.isEmpty then none
    else if ip.all Char.isDigit then some (natOfDigits (ip.map charDigit), 0)
    else none
  | (ip, some fp) =>
    if ip.isEmpty && fp.isEmpty then none
    else if ip.all Char.isDigit && fp.all Char.isDigit then
      some (natOfDigits ((ip ++ fp).map charDigit), fp.length)
    else none

/-- Signed integer exponent after `e`/`E`. -/
def parseExp (l : List Char) : Option ℤ :=
  let (neg, r) := parseSignChar l
  if r.isEmpty then none
  else if r.all Char.isDigit then
    some (if neg then -(natOfDigits (r.map charDigit) : ℤ) else (natOfDigits (r.map charDigit) : ℤ))
  else none

/-- Syntactic part of `float(s)`: optional sign, decimal mantissa, optional
`e`/`E` exponent.  All fields are discrete, so concrete inputs evaluate by
`decide`. -/
def parseFloatRep (s : String) : Option FloatRep :=
  let (neg, r) := parseSignChar s.data
  match splitOnExpChar r with
  | (m, none) => (parseMantissa m).map (fun p => ⟨neg, p.1, p.2, 0⟩)
  | (m, some e) =>
    match parseMantissa m, parseExp e with
    | some p, some ex => some ⟨neg, p.1, p.2, ex⟩
    | _, _ => none

/-- Exact rational value of an accepted decimal literal. -/
def floatVal (f : FloatRep) : ℚ :=
  (if f.neg then -1 else 1) * (f.mantNum : ℚ) / (10 : ℚ) ^ f.fracLen * (10 : ℚ) ^ f.exp

/-- Model of Python `float(s)` on the plain decimal literals this program
reads and writes: optional sign, decimal mantissa, optional `e`/`E` exponent.
(The model does not cover `inf`/`nan`/underscore spellings, which cannot
appear in this program's data.) Returns `none` when `float` raises. -/
def parseFloat (s : String) : Option ℚ :=
  (parseFloatRep s).map floatVal

/-! ### The record store (`init_file`, `add_expense`, `read_expenses`) -/

/-- One expense record as the CLI hands it to `add_expense`: all four cell
texts (the `amount` cell is `str(amount)`, the text the `csv` writer emits
for the float the menu read). -/
structure Row where
  date : String
  category : String
  amount : String
  descr : String
deriving DecidableEq, Repr

/-- The cells `add_expense` writes, in the fixed field order of the file. -/
def rowCells (r : Row) : List String := [r.date, r.category, r.amount, r.descr]

/-- `expenses.csv` as decoded lines of cells; `none` = the file is absent. -/
abbrev State := Option (List (List String))

/-- The header row `init_file` writes. -/
def canonicalHeader : List String := ["date", "category", "amount", "description"]

/-- `init_file()`: create the file with the header row when absent, do
nothing otherwise. -/
def init_file (s : State) : State :=
  match s with
  | none => some [canonicalHeader]
  | some f => some f

/-- `add_expense(date, category, amount, description)`: append-mode write of
one row, with no validation; append mode creates the file when absent (then
the new row is the file's first line). -/
def add_expense (r : Row) (s : State) : State :=
  match s with
  | none => some [rowCells r]
  | some f => some (f ++ [rowCells r])

/-- `read_expenses()`: `[]` when the file is absent; otherwise every line
after the header line, exactly as stored (`csv.DictReader` consumes the
first line as field names and yields the remaining lines). -/
def read_expenses (s : State) : List (List String) :=
  match s with
  | none => []
  | some [] => []
  | some (_ :: rows) => rows

/-- `read_expenses` as a state-passing operation: it opens the file in read
mode only (and only when it exists), so the store is returned unchanged. -/
def read_expenses_op (s : State) : List (List String) × State :=
  (read_expenses s, s)

/-! ### The query engine (`total_expenses`, `summary_by_category`) -/

/-- Errors the engine can raise while scanning rows. -/
inductive Err where
  | invalidDate : String → Err
  | invalidFloat : String → Err
deriving DecidableEq, Repr

/-- The `if end and date > datetime.strptime(end, ...)` check of the loop
body: skip decision against the optional upper bound. -/
def endSkip (e? : Option String) (d : Date) : Except Err Bool :=
  match e? with
  | none => Except.ok false
  | some e =>
    match parseDate e with
    | none => Except.error (Err.invalidDate e)
    | some ed => Except.ok (dateLtB ed d)

/-- The two `continue` checks of the loop body, in source order: the `end`
bound is only examined when the `start` check does not already skip the row,
and a bound that fails `strptime` raises. Returns `true` when the row is
skipped. -/
def rangeSkip (s? e? : Option String) (d : Date) : Except Err Bool :=
  match s? with
  | none => endSkip e? d
  | some s =>
    match parseDate s with
    | none => Except.error (Err.invalidDate s)
    | some sd => if dateLtB d sd then Except.ok true else endSkip e? d

/-- The `for row in rows` loop of `total_expenses`, accumulator explicit:
parse the row's date (raising on failure), apply the two range checks, and
add `float(row["amount"])` (raising on failure) for rows in range. -/
def total_expenses_loop (s? e? : Option String) : List Row → ℚ → Except Err ℚ
  | [], acc => Except.ok acc
  | row :: rest, acc =>
    match parseDate row.date with
    | none => Except.error (Err.invalidDate row.date)
    | some d =>
      match rangeSkip s? e? d with
      | Except.error err => Except.error err
      | Except.ok true => total_expenses_loop s? e? rest acc
      | Except.ok false =>
        match parseFloat row.amount with
        | none => Except.error (Err.invalidFloat row.amount)
        | some a => total_expenses_loop s? e? rest (acc + a)

/-- `total_expenses(start, end)` over the record sequence its
`read_expenses()` call returned. -/
def total_expenses (s? e? : Option String) (rows : List Row) : Except Err ℚ :=
  total_expenses_loop s? e? rows 0

/-- `summary[cat] = summary.get(cat, 0) + amt`: Python dicts keep insertion
order, so an existing key is updated in place and a new key goes to the end. -/
def upsert (k : String) (v : ℚ) : List (String × ℚ) → List (String × ℚ)
  | [] => [(k, v)]
  | (k', v') :: rest =>
    if k' = k then (k', v' + v) :: rest else (k', v') :: upsert k v rest

/-- The `for row in rows` loop of `summary_by_category`, accumulator
explicit; the filtering skeleton is identical to `total_expenses`. -/
def summary_by_category_loop (s? e? : Option String) :
    List Row → List (String × ℚ) → Except Err (List (String × ℚ))
  | [], acc => Except.ok acc
  | row :: rest, acc =>
    match parseDate row.date with
    | none => Except.error (Err.invalidDate row.date)
    | some d =>
      match rangeSkip s? e? d with
      | Except.error err => Except.error err
      | Except.ok true => summary_by_category_loop s? e? rest acc
      | Except.ok false =>
        match parseFloat row.amount with
        | none => Except.error (Err.invalidFloat row.amount)
        | some a => summary_by_category_loop s? e? rest (upsert row.category a acc)

/-- `summary_by_category(start, end)` over the record sequence its
`read_expenses()` call returned; the result is the dict as an ordered
association list. -/
def summary_by_category (s? e? : Option String) (rows : List Row) :
    Except Err (List (String × ℚ)) :=
  summary_by_category_loop s? e? rows []

/-! ### Derived views used to state the claims -/

/-- Parsed date of a row (defaulting on rows whose date does not parse; the
claims that use it always assume or assert parsability). -/
def dateOf (r : Row) : Date := (parseDate r.date).getD (1, 1, 1)

/-- Parsed amount of a row (defaulting likewise). -/
def amtOf (r : Row) : ℚ := (parseFloat r.amount).getD 0

/-- A row both of whose fallible fields parse. -/
def validRow (r : Row) : Bool :=
  (parseDate r.date).isSome && (parseFloat r.amount).isSome

/-- The fused membership test of the two query loops, extracted over parsed
bounds: keep a row iff neither `continue` fires. -/
def keepRow (sd ed : Option Date) (d : Date) : Bool :=
  (sd.all fun x => !dateLtB d x) && (ed.all fun x => !dateLtB x d)

/-- The spec's reading of the same test: `start <= date <= end`, each bound
optional and inclusive. -/
def boundOkB (sd ed : Option Date) (d : Date) : Bool :=
  sd.all (fun x => chronLeB x d) && ed.all (fun x => chronLeB d x)

/-- The date-range filter the two query loops implement, extracted as a
standalone subsequence filter over parsed bounds. -/
def filterByDateRange (rows : List Row) (sd ed : Option Date) : List Row :=
  rows.filter (fun r => keepRow sd ed (dateOf r))

/-- An optional bound string and its parsed form agree. -/
def relParseB (os : Option String) (od : Option Date) : Bool :=
  match os, od with
  | none, none => true
  | some s, some d => decide (parseDate s = some d)
  | _, _ => false

/-- Sum of the amounts of a record list. -/
def sumAmounts (rows : List Row) : ℚ := (rows.map amtOf).sum

/-- The pure dict a query loop builds over an already-filtered record list. -/
def summaryPure (rows : List Row) : List (String × ℚ) :=
  rows.foldl (fun acc r => upsert r.category (amtOf r) acc) []

/-- Sum of the values of an ordered association list. -/
def sumValues (l : List (String × ℚ)) : ℚ := (l.map Prod.snd).sum

/-- The step function both query loops fold with (over already-kept rows). -/
def summaryStep (acc : List (String × ℚ)) (r : Row) : List (String × ℚ) :=
  upsert r.category (amtOf r) acc

/-- Modelled from the spec: a cell text carrying exactly two digits after its
decimal point (`42.50` qualifies, `42.5` does not). -/
def hasTwoDecimals (s : String) : Bool :=
  match splitOnDot s.data with
  | (_, some fp) => fp.length == 2 && fp.all Char.isDigit
  | (_, none) => false

/-- The category labels of a record list in first-encountered order
(accumulator = labels already seen). -/
def firstKeysAux (seen : List String) : List String → List String
  | [] => []
  | c :: r => if c ∈ seen then firstKeysAux seen r else c :: firstKeysAux (c :: seen) r

/-- Category labels in first-encountered order. -/
def firstKeys (l : List String) : List String := firstKeysAux [] l

/-- Total amount of the rows carrying one given category label. -/
def categorySum (c : String) (rows : List Row) : ℚ :=
  sumAmounts (rows.filter (fun r => r.category = c))

/-! ### The CSV record format (`csv.writer` / `csv.reader`, minimal quoting)

`export_csv` writes the dict rows through `csv.DictWriter`, which quotes a
cell exactly when it contains a delimiter, a quote character or a line
break, doubling embedded quote characters; `csv.reader` decodes this.  The
line terminator is abstracted to a single `'\n'` between lines. -/

/-- Does this cell character force the cell to be quoted? -/
def needsQuote (c : Char) : Bool := c = ',' || c = '"' || c = '\n' || c = '\r'

/-- Double every embedded quote character. -/
def escapeQuotes : List Char → List Char
  | [] => []
  | c :: r => if c = '"' then '"' :: '"' :: escapeQuotes r else c :: escapeQuotes r

/-- Encode one cell with minimal quoting. -/
def encodeField (f : List Char) : List Char :=
  if f.any needsQuote then '"' :: (escapeQuotes f ++ ['"']) else f

/-- Encode one line of cells, comma separated. -/
def encodeLine : List (List Char) → List Char
  | [] => []
  | [f] => encodeField f
  | f :: rest => encodeField f ++ ',' :: encodeLine rest

/-- Decode a quoted cell body: stop at the closing quote, undouble embedded
quote pairs; returns the cell content and the input after the closing quote. -/
def parseQuoted : List Char → List Char × List Char
  | [] => ([], [])
  | c :: r =>
    if c = '"' then
      match r with
      | [] => ([], [])
      | c2 :: r2 =>
        if c2 = '"' then
          let (cs, rest) := parseQuoted r2
          ('"' :: cs, rest)
        else ([], r)
    else
      let (cs, rest) := parseQuoted r
      (c :: cs, rest)

/-- Decode an unquoted cell: stop before the next comma. -/
def parseUnquoted : List Char → List Char × List Char
  | [] => ([], [])
  | c :: r =>
    if c = ',' then ([], c :: r)
    else
      let (cs, rest) := parseUnquoted r
      (c :: cs, rest)

/-- Decode the cells of one line; the fuel argument bounds the number of
cells and is in surplus whenever it exceeds the cell count. -/
def parseFieldsAux : Nat → List Char → List (List Char)
  | 0, _ => []
  | fuel + 1, s =>
    let p :=
      match s with
      | [] => parseUnquoted s
      | c :: r => if c = '"' then parseQuoted r else parseUnquoted s
    match p.2 with
    | [] => [p.1]
    | c :: r => if c = ',' then p.1 :: parseFieldsAux fuel r else [p.1]

/-- Decode one CSV line into its cells. -/
def parseLine (s : List Char) : List (List Char) := parseFieldsAux (s.length + 1) s

/-- Split a file's characters into its lines. -/
def splitLines : List Char → List (List Char)
  | [] => [[]]
  | c :: r =>
    if c = '\n' then [] :: splitLines r
    else
      match splitLines r with
      | [] => [[c]]
      | l :: rest => (c :: l) :: rest

/-- Join lines with the (abstracted) line terminator. -/
def joinLines : List (List Char) → List Char
  | [] => []
  | [l] => l
  | l :: rest => l ++ '\n' :: joinLines rest

/-- Encode one row of cell texts as a CSV line. -/
def encodeRow (cells : List String) : List Char := encodeLine (cells.map String.data)

/-- `export_csv(path)` over the rows its `read_expenses()` call returned:
with no rows it prints a message and writes nothing (no file), otherwise it
writes the header line followed by one encoded line per row. -/
def export_csv (rows : List Row) : Option (List Char) :=
  match rows with
  | [] => none
  | _ => some (joinLines (encodeRow canonicalHeader :: rows.map (fun r => encodeRow (rowCells r))))

/-- Reading an exported file back through the same record format
(`read_expenses` applied at the export path): `[]` when the file is absent,
otherwise every decoded line after the header line. -/
def readCsvFile (file : Option (List Char)) : List (List String) :=
  match file with
  | none => []
  | some content =>
    match (splitLines content).map (fun l => (parseLine l).map String.mk) with
    | [] => []
    | _ :: dataRows => dataRows

/-- A cell with no line break (the one shape the single-`'\n'` line model
does not cover; the menu strips input, so stored cells never contain one). -/
def cleanStr (s : String) : Bool := s.data.all (fun c => !(c = '\n' || c = '\r'))

/-- A record all of whose cells are line-break free. -/
def cleanRow (r : Row) : Bool := (rowCells r).all cleanStr

/-! ### Canonical ISO-8601 rendering (spec side, for the ordering claim) -/

/-- The decimal digit character for `n ≤ 9`. -/
def digitChar (n : Nat) : Char := Char.ofNat (48 + n)

/-- Two-digit zero-padded decimal expansion. -/
def digits2 (n : Nat) : List Nat := [n / 10 % 10, n % 10]

/-- Four-digit zero-padded decimal expansion. -/
def digits4 (n : Nat) : List Nat := [n / 1000 % 10, n / 100 % 10, n / 10 % 10, n % 10]

/-- Modelled from the spec: the canonical `YYYY-MM-DD` rendering of a
calendar date (the program itself never renders dates; its date strings
arrive from the user already in this shape). -/
def dateToString (t : Date) : String :=
  String.mk ((digits4 t.1).map digitChar ++
    '-' :: ((digits2 t.2.1).map digitChar ++ '-' :: (digits2 t.2.2).map digitChar))

/-- A `(year, month, day)` triple in the range `strptime`/`datetime` accept:
positive 4-digit year, month `1..12`, day valid for the month. -/
def validTriple (t : Date) : Bool :=
  1 ≤ t.1 && t.1 ≤ 9999 && 1 ≤ t.2.1 && t.2.1 ≤ 12 && 1 ≤ t.2.2 &&
    t.2.2 ≤ daysInMonth t.1 t.2.1

/-! ### Helper lemmas: date order -/

theorem not_dateLtB (a b : Date) : (!dateLtB a b) = chronLeB b a := by
  rcases a with ⟨y1, m1, d1⟩
  rcases b with ⟨y2, m2, d2⟩
  rw [Bool.eq_iff_iff]
  simp [dateLtB, chronLeB, Prod.ext_iff]
  omega

theorem keepRow_eq_boundOkB (sd ed : Option Date) (d : Date) :
    keepRow sd ed d = boundOkB sd ed d := by
  cases sd <;> cases ed <;> simp [keepRow, boundOkB, not_dateLtB]

/-! ### Helper lemmas: the fused filter inside the query loops -/

theorem endSkip_eval (e? : Option String) (ed : Option Date) (d : Date)
    (he : relParseB e? ed = true) :
    endSkip e? d = Except.ok (!(ed.all fun x => !dateLtB x d)) := by
  cases e? <;> cases ed <;> simp [relParseB] at he <;> simp [endSkip, he]

theorem rangeSkip_eval (s? e? : Option String) (sd ed : Option Date) (d : Date)
    (hs : relParseB s? sd = true) (he : relParseB e? ed = true) :
    rangeSkip s? e? d = Except.ok (!keepRow sd ed d) := by
  cases s? <;> cases sd <;> simp [relParseB] at hs
  · simp [rangeSkip, endSkip_eval e? ed d he, keepRow]
  · rename_i s sd
    cases hlt : dateLtB d sd with
    | true => simp [rangeSkip, hs, hlt, keepRow]
    | false => simp [rangeSkip, hs, hlt, endSkip_eval e? ed d he, keepRow]

theorem validRow_date (r : Row) (h : validRow r = true) :
    parseDate r.date = some (dateOf r) := by
  simp [validRow] at h
  obtain ⟨d, hd⟩ := Option.isSome_iff_exists.mp h.1
  simp [dateOf, hd]

theorem validRow_amount (r : Row) (h : validRow r = true) :
    parseFloat r.amount = some (amtOf r) := by
  simp [validRow] at h
  obtain ⟨a, ha⟩ := Option.isSome_iff_exists.mp h.2
  simp [amtOf, ha]

theorem filterByDateRange_cons (row : Row) (rest : List Row) (sd ed : Option Date) :
    filterByDateRange (row :: rest) sd ed =
      if keepRow sd ed (dateOf row) then row :: filterByDateRange rest sd ed
      else filterByDateRange rest sd ed := by
  simp [filterByDateRange, List.filter_cons]

theorem sumAmounts_nil : sumAmounts [] = 0 := rfl

theorem sumAmounts_cons (r : Row) (l : List Row) :
    sumAmounts (r :: l) = amtOf r + sumAmounts l := by
  simp [sumAmounts]

/-! ### Helper lemmas: `total_expenses` -/

theorem total_loop_eq (s? e? : Option String) (sd ed : Option Date)
    (hs : relParseB s? sd = true) (he : relParseB e? ed = true)
    (rows : List Row) :
    ∀ (acc : ℚ), (∀ r ∈ rows, validRow r = true) →
      total_expenses_loop s? e? rows acc =
        Except.ok (acc + sumAmounts (filterByDateRange rows sd ed)) := by
  induction rows with
  | nil => intro acc _; simp [total_expenses_loop, filterByDateRange, sumAmounts]
  | cons row rest ih =>
    intro acc hv
    have hrow : validRow row = true := hv row (by simp)
    have hrest : ∀ r ∈ rest, validRow r = true := fun r hr => hv r (by simp [hr])
    have hd := validRow_date row hrow
    have ha := validRow_amount row hrow
    simp only [total_expenses_loop, hd, rangeSkip_eval s? e? sd ed (dateOf row) hs he]
    cases hk : keepRow sd ed (dateOf row) with
    | false =>
      simp only [Bool.not_false, ih acc hrest, filterByDateRange_cons, hk, if_neg]
      simp
    | true =>
      simp only [Bool.not_true, ha, ih (acc + amtOf row) hrest,
        filterByDateRange_cons, hk, if_pos, sumAmounts_cons]
      congr 1
      ring

theorem total_expenses_eq (s? e? : Option String) (sd ed : Option Date)
    (hs : relParseB s? sd = true) (he : relParseB e? ed = true)
    (rows : List Row) (hv : ∀ r ∈ rows, validRow r = true) :
    total_expenses s? e? rows =
      Except.ok (sumAmounts (filterByDateRange rows sd ed)) := by
  rw [total_expenses, total_loop_eq s? e? sd ed hs he rows 0 hv, zero_add]

/-! ### Helper lemmas: `summary_by_category` -/

theorem summary_loop_eq (s? e? : Option String) (sd ed : Option Date)
    (hs : relParseB s? sd = true) (he : relParseB e? ed = true)
    (rows : List Row) :
    ∀ (acc : List (String × ℚ)), (∀ r ∈ rows, validRow r = true) →
      summary_by_category_loop s? e? rows acc =
        Except.ok (List.foldl (fun acc r => upsert r.category (amtOf r) acc) acc
          (filterByDateRange rows sd ed)) := by
  induction rows with
  | nil => intro acc _; simp [summary_by_category_loop, filterByDateRange]
  | cons row rest ih =>
    intro acc hv
    have hrow : validRow row = true := hv row (by simp)
    have hrest : ∀ r ∈ rest, validRow r = true := fun r hr => hv r (by simp [hr])
    have hd := validRow_date row hrow
    have ha := validRow_amount row hrow
    simp only [summary_by_category_loop, hd, rangeSkip_eval s? e? sd ed (dateOf row) hs he]
    cases hk : keepRow sd ed (dateOf row) with
    | false =>
      simp only [Bool.not_false, ih acc hrest, filterByDateRange_cons, hk, if_neg]
      simp
    | true =>
      simp only [Bool.not_true, ha, ih (upsert row.category (amtOf row) acc) hrest,
        filterByDateRange_cons, hk, if_pos]
      simp [List.foldl_cons]

theorem summary_by_category_eq (s? e? : Option String) (sd ed : Option Date)
    (hs : relParseB s? sd = true) (he : relParseB e? ed = true)
    (rows : List Row) (hv : ∀ r ∈ rows, validRow r = true) :
    summary_by_category s? e? rows =
      Except.ok (summaryPure (filterByDateRange rows sd ed)) := by
  rw [summary_by_category, summary_loop_eq s? e? sd ed hs he rows [] hv, summaryPure]

/-! ### Helper lemmas: the summary dict -/

theorem filterByDateRange_none_none (rows : List Row) :
    filterByDateRange rows none none = rows := by
  simp [filterByDateRange, keepRow]

theorem sumValues_upsert (k : String) (v : ℚ) (l : List (String × ℚ)) :
    sumValues (upsert k v l) = sumValues l + v := by
  induction l with
  | nil => simp [upsert, sumValues]
  | cons p rest ih =>
    rcases p with ⟨k', v'⟩
    by_cases h : k' = k <;> simp [upsert, h, sumValues] at ih ⊢ <;> ring_nf
    rw [ih]
    ring

theorem keys_upsert (k : String) (v : ℚ) (l : List (String × ℚ)) :
    (upsert k v l).map Prod.fst =
      if k ∈ l.map Prod.fst then l.map Prod.fst else l.map Prod.fst ++ [k] := by
  induction l with
  | nil => simp [upsert]
  | cons p rest ih =>
    rcases p with ⟨k', v'⟩
    by_cases h : k' = k
    · simp [upsert, h]
    · by_cases hm : k ∈ rest.map Prod.fst <;>
        simp [upsert, h, hm, Ne.symm h, ih]

theorem lookup_upsert (c k : String) (v : ℚ) (l : List (String × ℚ)) :
    ((upsert k v l).lookup c).getD 0 =
      (l.lookup c).getD 0 + (if c = k then v else 0) := by
  induction l with
  | nil =>
    by_cases h : c = k
    · simp [upsert, List.lookup, h]
    · simp [upsert, List.lookup, beq_eq_false_iff_ne.mpr h, h]
  | cons p rest ih =>
    rcases p with ⟨k', v'⟩
    by_cases h : k' = k
    · by_cases hc : c = k'
      · simp [upsert, h, List.lookup, hc, hc.trans h]
      · have hck : ¬ c = k := fun hck => hc (hck.trans h.symm)
        simp [upsert, h, List.lookup, beq_eq_false_iff_ne.mpr hck, hck]
    · by_cases hc : c = k'
      · simp [upsert, h, List.lookup, hc, fun hck : c = k => h (hc.symm.trans hck)]
      · simp [upsert, h, List.lookup, beq_eq_false_iff_ne.mpr hc, ih]

theorem summaryPure_eq_foldl (rows : List Row) :
    summaryPure rows = List.foldl summaryStep [] rows := rfl

theorem sumValues_foldl (rows : List Row) :
    ∀ acc, sumValues (List.foldl summaryStep acc rows) = sumValues acc + sumAmounts rows := by
  induction rows with
  | nil => intro acc; simp [sumAmounts]
  | cons r rest ih =>
    intro acc
    simp only [List.foldl_cons, ih, summaryStep, sumValues_upsert, sumAmounts_cons]
    ring

theorem sumValues_summaryPure (rows : List Row) :
    sumValues (summaryPure rows) = sumAmounts rows := by
  rw [summaryPure_eq_foldl, sumValues_foldl]
  simp [sumValues]

theorem firstKeysAux_congr (l : List String) :
    ∀ s1 s2, (∀ x, x ∈ s1 ↔ x ∈ s2) → firstKeysAux s1 l = firstKeysAux s2 l := by
  induction l with
  | nil => intro s1 s2 _; rfl
  | cons c rest ih =>
    intro s1 s2 hmem
    by_cases h : c ∈ s1
    · simp [firstKeysAux, h, (hmem c).mp h, ih s1 s2 hmem]
    · have h2 : c ∉ s2 := fun hc => h ((hmem c).mpr hc)
      simp only [firstKeysAux, if_neg h, if_neg h2]
      have : ∀ x, x ∈ c :: s1 ↔ x ∈ c :: s2 := by
        intro x; simp [hmem x]
      rw [ih (c :: s1) (c :: s2) this]

theorem keys_foldl (rows : List Row) :
    ∀ acc, (List.foldl summaryStep acc rows).map Prod.fst =
      acc.map Prod.fst ++ firstKeysAux (acc.map Prod.fst) (rows.map Row.category) := by
  induction rows with
  | nil => intro acc; simp [firstKeysAux]
  | cons r rest ih =>
    intro acc
    simp only [List.foldl_cons, List.map_cons, ih, summaryStep, keys_upsert]
    by_cases hm : r.category ∈ acc.map Prod.fst
    · simp [hm, firstKeysAux]
    · simp only [if_neg hm, firstKeysAux, if_neg hm]
      rw [firstKeysAux_congr (rest.map Row.category) (acc.map Prod.fst ++ [r.category])
        (r.category :: acc.map Prod.fst) (by intro x; simp; tauto)]
      simp

theorem keys_summaryPure (rows : List Row) :
    (summaryPure rows).map Prod.fst = firstKeys (rows.map Row.category) := by
  rw [summaryPure_eq_foldl, keys_foldl]
  simp [firstKeys]

theorem categorySum_cons (c : String) (r : Row) (rest : List Row) :
    categorySum c (r :: rest) =
      (if r.category = c then amtOf r else 0) + categorySum c rest := by
  by_cases h : r.category = c <;>
    simp [categorySum, List.filter_cons, h, sumAmounts_cons]

theorem lookup_foldl (c : String) (rows : List Row) :
    ∀ acc, ((List.foldl summaryStep acc rows).lookup c).getD 0 =
      (acc.lookup c).getD 0 + categorySum c rows := by
  induction rows with
  | nil => intro acc; simp [categorySum, sumAmounts]
  | cons r rest ih =>
    intro acc
    simp only [List.foldl_cons, ih, summaryStep, lookup_upsert, categorySum_cons]
    by_cases h : c = r.category
    · simp [h]; ring
    · have h2 : ¬ r.category = c := fun hh => h hh.symm
      simp [h, h2]

theorem lookup_summaryPure (c : String) (rows : List Row) :
    ((summaryPure rows).lookup c).getD 0 = categorySum c rows := by
  rw [summaryPure_eq_foldl, lookup_foldl]
  simp [List.lookup]

/-! ### Helper lemmas: CSV round trip -/

theorem parseUnquoted_exact (f : List Char) (hf : ∀ c ∈ f, c ≠ ',')
    (rest : List Char) (hr : rest = [] ∨ ∃ r, rest = ',' :: r) :
    parseUnquoted (f ++ rest) = (f, rest) := by
  induction f with
  | nil =>
    rcases hr with rfl | ⟨r, rfl⟩
    · rfl
    · rfl
  | cons c cs ih =>
    have hc : c ≠ ',' := hf c (by simp)
    simp only [List.cons_append, parseUnquoted, if_neg hc, List.append_eq]
    rw [ih (fun x hx => hf x (by simp [hx]))]

theorem parseQuoted_exact (f : List Char) :
    ∀ rest, rest.head? ≠ some '"' →
      parseQuoted (escapeQuotes f ++ '"' :: rest) = (f, rest) := by
  induction f with
  | nil =>
    intro rest hr
    cases rest with
    | nil => rfl
    | cons c2 r2 =>
      have hc2 : c2 ≠ '"' := by intro h; exact hr (by simp [h])
      rw [show escapeQuotes [] ++ '"' :: c2 :: r2 = '"' :: c2 :: r2 from rfl,
        parseQuoted.eq_def]
      simp [hc2]
  | cons c cs ih =>
    intro rest hr
    by_cases hc : c = '"'
    · subst hc
      simp only [escapeQuotes, if_pos rfl, List.cons_append]
      rw [parseQuoted.eq_def]
      simp [ih rest hr]
    · simp only [escapeQuotes, if_neg hc, List.cons_append]
      rw [parseQuoted.eq_def]
      simp [hc, ih rest hr]

theorem clean_of_not_needsQuote (f : List Char) (hq : f.any needsQuote = false) :
    ∀ c ∈ f, c ≠ ',' ∧ c ≠ '"' := by
  intro c hc
  have := List.any_eq_false.mp hq c hc
  simp [needsQuote] at this
  exact ⟨by tauto, by tauto⟩

theorem parseFieldsAux_field_end (f : List Char) (fuel : Nat) :
    parseFieldsAux (fuel + 1) (encodeField f) = [f] := by
  by_cases hq : f.any needsQuote
  · simp only [encodeField, if_pos hq]
    have h := parseQuoted_exact f [] (by simp)
    simp only [parseFieldsAux, if_pos rfl]
    simp [h]
  · have hclean := clean_of_not_needsQuote f (by simpa using hq)
    simp only [encodeField, if_neg hq]
    cases f with
    | nil => rfl
    | cons c cs =>
      have hc : c ≠ '"' := (hclean c (by simp)).2
      have hu : parseUnquoted (c :: cs) = (c :: cs, []) := by
        have := parseUnquoted_exact (c :: cs) (fun x hx => (hclean x hx).1) [] (Or.inl rfl)
        simpa using this
      simp only [parseFieldsAux, if_neg hc]
      simp [hu]

theorem parseFieldsAux_field_comma (f : List Char) (r : List Char) (fuel : Nat) :
    parseFieldsAux (fuel + 1) (encodeField f ++ ',' :: r) =
      f :: parseFieldsAux fuel r := by
  by_cases hq : f.any needsQuote
  · simp only [encodeField, if_pos hq]
    have h := parseQuoted_exact f (',' :: r) (by simp)
    simp only [List.cons_append, List.append_assoc]
    simp only [parseFieldsAux, if_pos rfl]
    simp only [List.cons_append] at h
    simp [h]
  · have hclean := clean_of_not_needsQuote f (by simpa using hq)
    simp only [encodeField, if_neg hq]
    have hu : parseUnquoted (f ++ ',' :: r) = (f, ',' :: r) :=
      parseUnquoted_exact f (fun x hx => (hclean x hx).1) (',' :: r) (Or.inr ⟨r, rfl⟩)
    cases f with
    | nil =>
      simp only [List.nil_append] at hu ⊢
      simp [parseFieldsAux, hu]
    | cons c cs =>
      have hc : c ≠ '"' := (hclean c (by simp)).2
      simp only [List.cons_append] at hu ⊢
      simp [parseFieldsAux, if_neg hc, hu]

theorem parseFieldsAux_encodeLine (fs : List (List Char)) :
    ∀ fuel, fs ≠ [] → fs.length ≤ fuel →
      parseFieldsAux fuel (encodeLine fs) = fs := by
  induction fs with
  | nil => intro _ h _; exact absurd rfl h
  | cons f fs' ih =>
    intro fuel _ hlen
    cases fuel with
    | zero => simp at hlen
    | succ n =>
      cases fs' with
      | nil => exact parseFieldsAux_field_end f n
      | cons f2 rest =>
        rw [show encodeLine (f :: f2 :: rest) = encodeField f ++ ',' :: encodeLine (f2 :: rest)
          from rfl]
        rw [parseFieldsAux_field_comma f (encodeLine (f2 :: rest)) n]
        rw [ih n (by simp) (by simpa using hlen)]

theorem encodeLine_length_ge (fs : List (List Char)) :
    fs.length ≤ (encodeLine fs).length + 1 := by
  induction fs with
  | nil => simp
  | cons f fs' ih =>
    cases fs' with
    | nil => simp [encodeLine]
    | cons f2 rest =>
      rw [show encodeLine (f :: f2 :: rest) = encodeField f ++ ',' :: encodeLine (f2 :: rest)
        from rfl]
      simp only [List.length_cons, List.length_append] at ih ⊢
      omega

theorem parseLine_encodeLine (fs : List (List Char)) (hne : fs ≠ []) :
    parseLine (encodeLine fs) = fs :=
  parseFieldsAux_encodeLine fs ((encodeLine fs).length + 1) hne (encodeLine_length_ge fs)

theorem mem_escapeQuotes (f : List Char) (c : Char) :
    c ∈ escapeQuotes f → c ∈ f := by
  induction f with
  | nil => simp [escapeQuotes]
  | cons x xs ih =>
    intro h
    by_cases hx : x = '"'
    · subst hx
      simp only [escapeQuotes, eq_self_iff_true, if_true, List.mem_cons] at h
      simp only [List.mem_cons]
      rcases h with h | h
      · exact Or.inl h
      · rcases h with h | h
        · exact Or.inl h
        · exact Or.inr (ih h)
    · simp only [escapeQuotes, if_neg hx, List.mem_cons] at h
      rcases h with h | h
      · simp [h]
      · simp [ih h]

theorem mem_encodeField (f : List Char) (c : Char) :
    c ∈ encodeField f → c ∈ f ∨ c = '"' := by
  by_cases hq : f.any needsQuote <;> simp only [encodeField, if_pos, if_neg, hq]
  · intro h
    simp at h
    rcases h with h | h | h
    · right; exact h
    · left; exact mem_escapeQuotes f c h
    · right; exact h
  · intro h; left; exact h

theorem mem_encodeLine (fs : List (List Char)) (c : Char) :
    c ∈ encodeLine fs → (∃ f ∈ fs, c ∈ f) ∨ c = '"' ∨ c = ',' := by
  induction fs with
  | nil => simp [encodeLine]
  | cons f fs' ih =>
    cases fs' with
    | nil =>
      intro h
      rcases mem_encodeField f c h with h | h
      · exact Or.inl ⟨f, by simp, h⟩
      · exact Or.inr (Or.inl h)
    | cons f2 rest =>
      rw [show encodeLine (f :: f2 :: rest) = encodeField f ++ ',' :: encodeLine (f2 :: rest)
        from rfl]
      intro h
      simp only [List.mem_append, List.mem_cons] at h
      rcases h with h | h | h
      · rcases mem_encodeField f c h with h | h
        · exact Or.inl ⟨f, by simp, h⟩
        · exact Or.inr (Or.inl h)
      · exact Or.inr (Or.inr h)
      · rcases ih h with ⟨g, hg, hc⟩ | h
        · exact Or.inl ⟨g, by simp [hg], hc⟩
        · exact Or.inr h

theorem splitLines_no_newline (l : List Char) (h : '\n' ∉ l) :
    splitLines l = [l] := by
  induction l with
  | nil => rfl
  | cons c r ih =>
    have hc : c ≠ '\n' := fun hc => h (by simp [hc])
    have hr : '\n' ∉ r := fun hr => h (by simp [hr])
    simp only [splitLines, if_neg hc, ih hr]

theorem splitLines_append_newline (l rest : List Char) (h : '\n' ∉ l) :
    splitLines (l ++ '\n' :: rest) = l :: splitLines rest := by
  induction l with
  | nil => simp [splitLines]
  | cons c r ih =>
    have hc : c ≠ '\n' := fun hc => h (by simp [hc])
    have hr : '\n' ∉ r := fun hr => h (by simp [hr])
    simp only [List.cons_append, splitLines, if_neg hc, List.append_eq, ih hr]

theorem splitLines_joinLines (ls : List (List Char)) :
    ls ≠ [] → (∀ l ∈ ls, '\n' ∉ l) → splitLines (joinLines ls) = ls := by
  induction ls with
  | nil => intro h _; exact absurd rfl h
  | cons l ls' ih =>
    intro _ h
    cases ls' with
    | nil => exact splitLines_no_newline l (h l (by simp))
    | cons l2 rest =>
      rw [show joinLines (l :: l2 :: rest) = l ++ '\n' :: joinLines (l2 :: rest) from rfl]
      rw [splitLines_append_newline l _ (h l (by simp))]
      rw [ih (by simp) (fun x hx => h x (by simp [hx]))]

theorem string_mk_data (s : String) : String.mk s.data = s := rfl

theorem encodeRow_no_newline (cells : List String) (h : ∀ s ∈ cells, cleanStr s = true) :
    '\n' ∉ encodeRow cells := by
  intro hmem
  rcases mem_encodeLine _ _ hmem with ⟨f, hf, hc⟩ | h' | h'
  · obtain ⟨s, hs, rfl⟩ := List.mem_map.mp hf
    have hcl := h s hs
    simp [cleanStr] at hcl
    exact (hcl '\n' hc).1 rfl
  · exact absurd h' (by decide)
  · exact absurd h' (by decide)

theorem parseLine_encodeRow (cells : List String) (hne : cells ≠ []) :
    (parseLine (encodeRow cells)).map String.mk = cells := by
  rw [encodeRow, parseLine_encodeLine _ (by simpa using hne)]
  rw [List.map_map]
  have hcomp : (String.mk ∘ String.data) = id := funext fun s => string_mk_data s
  rw [hcomp, List.map_id]

theorem readCsvFile_export (rows : List Row) (h : ∀ r ∈ rows, cleanRow r = true) :
    readCsvFile (export_csv rows) = rows.map rowCells := by
  cases rows with
  | nil => rfl
  | cons r0 rest =>
    have hlines : ∀ l ∈ encodeRow canonicalHeader ::
        (r0 :: rest).map (fun r => encodeRow (rowCells r)), '\n' ∉ l := by
      intro l hl
      rcases List.mem_cons.mp hl with rfl | hl
      · decide
      · obtain ⟨r, hr, rfl⟩ := List.mem_map.mp hl
        refine encodeRow_no_newline _ ?_
        have := h r hr
        simpa [cleanRow] using this
    rw [show export_csv (r0 :: rest) = some (joinLines (encodeRow canonicalHeader ::
      (r0 :: rest).map (fun r => encodeRow (rowCells r)))) from rfl]
    rw [readCsvFile]
    rw [splitLines_joinLines _ (by simp) hlines]
    simp only [List.map_cons]
    rw [List.map_map]
    congr 1
    · exact parseLine_encodeRow (rowCells r0) (by simp [rowCells])
    · apply List.map_congr_left
      intro r hr
      exact parseLine_encodeRow (rowCells r) (by simp [rowCells])

/-! ### Helper lemmas: a successful scan certifies every row -/

theorem total_loop_none_ok_valid (rows : List Row) :
    ∀ acc v, total_expenses_loop none none rows acc = Except.ok v →
      ∀ r ∈ rows, validRow r = true := by
  induction rows with
  | nil => intro acc v _ r hr; simp at hr
  | cons row rest ih =>
    intro acc v h r hr
    rcases hpd : parseDate row.date with _ | d
    · simp [total_expenses_loop, hpd] at h
    · simp only [total_expenses_loop, hpd, rangeSkip, endSkip] at h
      rcases hpf : parseFloat row.amount with _ | a
      · simp [hpf] at h
      · simp only [hpf] at h
        rcases List.mem_cons.mp hr with rfl | hr
        · simp [validRow, hpd, hpf]
        · exact ih _ _ h r hr

theorem summary_loop_none_ok_valid (rows : List Row) :
    ∀ acc v, summary_by_category_loop none none rows acc = Except.ok v →
      ∀ r ∈ rows, validRow r = true := by
  induction rows with
  | nil => intro acc v _ r hr; simp at hr
  | cons row rest ih =>
    intro acc v h r hr
    rcases hpd : parseDate row.date with _ | d
    · simp [summary_by_category_loop, hpd] at h
    · simp only [summary_by_category_loop, hpd, rangeSkip, endSkip] at h
      rcases hpf : parseFloat row.amount with _ | a
      · simp [hpf] at h
      · simp only [hpf] at h
        rcases List.mem_cons.mp hr with rfl | hr
        · simp [validRow, hpd, hpf]
        · exact ih _ _ h r hr

/-! ### Helper lemmas: lexicographic order of canonical date strings -/

theorem digitChar_lt_iff :
    ∀ a, a ≤ 9 → ∀ b, b ≤ 9 → ((digitChar a < digitChar b) ↔ a < b) := by decide

theorem digitChar_eq_iff :
    ∀ a, a ≤ 9 → ∀ b, b ≤ 9 → ((digitChar a = digitChar b) ↔ a = b) := by decide

theorem digitChar_isDigit : ∀ a, a ≤ 9 → (digitChar a).isDigit = true := by decide

theorem digitChar_ne_dash : ∀ a, a ≤ 9 → digitChar a ≠ '-' := by decide

theorem charDigit_digitChar : ∀ a, a ≤ 9 → charDigit (digitChar a) = a := by decide

theorem list_lt_cons_iff {a b : Char} {l1 l2 : List Char} :
    (a :: l1 < b :: l2) ↔ (a < b ∨ (a = b ∧ l1 < l2)) := by
  constructor
  · intro h
    cases h with
    | cons h => exact Or.inr ⟨rfl, h⟩
    | rel h => exact Or.inl h
  · rintro (h | ⟨rfl, h⟩)
    · exact List.Lex.rel h
    · exact List.Lex.cons h

theorem not_list_lt_nil (l : List Char) : ¬ (l < ([] : List Char)) :=
  List.Lex.not_nil_right _ _

theorem natOfDigits_lt_pow (l : List Nat) (h : ∀ d ∈ l, d ≤ 9) :
    natOfDigits l < 10 ^ l.length := by
  induction l with
  | nil => simp [natOfDigits]
  | cons d r ih =>
    have hd : d ≤ 9 := h d (by simp)
    have hr := ih (fun x hx => h x (by simp [hx]))
    simp only [natOfDigits, List.length_cons]
    calc d * 10 ^ r.length + natOfDigits r
        < d * 10 ^ r.length + 10 ^ r.length := by omega
      _ = (d + 1) * 10 ^ r.length := by ring
      _ ≤ 10 * 10 ^ r.length := Nat.mul_le_mul_right _ (by omega)
      _ = 10 ^ (r.length + 1) := by ring

theorem natOfDigits_cons_lt {a b : Nat} (t1 t2 : List Nat)
    (hlen : t1.length = t2.length) (h1 : ∀ d ∈ t1, d ≤ 9) (hab : a < b) :
    natOfDigits (a :: t1) < natOfDigits (b :: t2) := by
  have hbound := natOfDigits_lt_pow t1 h1
  simp only [natOfDigits, hlen]
  calc a * 10 ^ t2.length + natOfDigits t1
      < a * 10 ^ t2.length + 10 ^ t2.length := by rw [← hlen]; omega
    _ = (a + 1) * 10 ^ t2.length := by ring
    _ ≤ b * 10 ^ t2.length := Nat.mul_le_mul_right _ (by omega)
    _ ≤ b * 10 ^ t2.length + natOfDigits t2 := Nat.le_add_right _ _

theorem lex_digit_blocks :
    ∀ (l1 l2 : List Nat) (r1 r2 : List Char), l1.length = l2.length →
      (∀ d ∈ l1, d ≤ 9) → (∀ d ∈ l2, d ≤ 9) →
      ((l1.map digitChar ++ r1) < (l2.map digitChar ++ r2) ↔
        (natOfDigits l1 < natOfDigits l2 ∨ (l1 = l2 ∧ r1 < r2))) := by
  intro l1
  induction l1 with
  | nil =>
    intro l2 r1 r2 hlen _ _
    have : l2 = [] := List.length_eq_zero.mp hlen.symm
    subst this
    simp [natOfDigits]
  | cons a t1 ih =>
    intro l2 r1 r2 hlen hb1 hb2
    cases l2 with
    | nil => simp at hlen
    | cons b t2 =>
      have ha : a ≤ 9 := hb1 a (by simp)
      have hb : b ≤ 9 := hb2 b (by simp)
      have ht1 : ∀ d ∈ t1, d ≤ 9 := fun d hd => hb1 d (by simp [hd])
      have ht2 : ∀ d ∈ t2, d ≤ 9 := fun d hd => hb2 d (by simp [hd])
      have hlen' : t1.length = t2.length := by simpa using hlen
      simp only [List.map_cons, List.cons_append]
      rw [list_lt_cons_iff, digitChar_lt_iff a ha b hb, digitChar_eq_iff a ha b hb,
        ih t2 r1 r2 hlen' ht1 ht2]
      rcases Nat.lt_trichotomy a b with hab | hab | hab
      · constructor
        · intro _
          exact Or.inl (natOfDigits_cons_lt t1 t2 hlen' ht1 hab)
        · intro _
          exact Or.inl hab
      · subst hab
        constructor
        · rintro (h | ⟨-, h | ⟨rfl, h⟩⟩)
          · omega
          · refine Or.inl ?_
            simp only [natOfDigits, hlen']
            omega
          · exact Or.inr ⟨rfl, h⟩
        · rintro (h | ⟨heq, h⟩)
          · refine Or.inr ⟨rfl, Or.inl ?_⟩
            simp only [natOfDigits, hlen'] at h
            omega
          · obtain ⟨-, rfl⟩ : a = a ∧ t1 = t2 := by
              constructor
              · rfl
              · exact (List.cons.injEq a t1 a t2).mp heq |>.2
            exact Or.inr ⟨rfl, Or.inr ⟨rfl, h⟩⟩
      · have hne : a ≠ b := by omega
        have hge : natOfDigits (b :: t2) < natOfDigits (a :: t1) :=
          natOfDigits_cons_lt t2 t1 hlen'.symm ht2 hab
        constructor
        · rintro (h | ⟨h, -⟩)
          · omega
          · exact absurd h hne
        · rintro (h | ⟨heq, -⟩)
          · omega
          · exact absurd ((List.cons.injEq a t1 b t2).mp heq).1 hne

theorem digits4_bounds (y : Nat) : ∀ d ∈ digits4 y, d ≤ 9 := by
  intro d hd
  simp [digits4] at hd
  rcases hd with rfl | rfl | rfl | rfl <;> omega

theorem digits2_bounds (m : Nat) : ∀ d ∈ digits2 m, d ≤ 9 := by
  intro d hd
  simp [digits2] at hd
  rcases hd with rfl | rfl <;> omega

theorem natOfDigits_digits4 (y : Nat) (h : y ≤ 9999) : natOfDigits (digits4 y) = y := by
  simp [digits4, natOfDigits]
  omega

theorem natOfDigits_digits2 (m : Nat) (h : m ≤ 99) : natOfDigits (digits2 m) = m := by
  simp [digits2, natOfDigits]
  omega

theorem digits4_inj (y1 y2 : Nat) (h1 : y1 ≤ 9999) (h2 : y2 ≤ 9999) :
    digits4 y1 = digits4 y2 ↔ y1 = y2 := by
  constructor
  · intro h
    have := congrArg natOfDigits h
    rwa [natOfDigits_digits4 y1 h1, natOfDigits_digits4 y2 h2] at this
  · intro h; rw [h]

theorem digits2_inj (m1 m2 : Nat) (h1 : m1 ≤ 99) (h2 : m2 ≤ 99) :
    digits2 m1 = digits2 m2 ↔ m1 = m2 := by
  constructor
  · intro h
    have := congrArg natOfDigits h
    rwa [natOfDigits_digits2 m1 h1, natOfDigits_digits2 m2 h2] at this
  · intro h; rw [h]

theorem dash_cons_lt_iff (r1 r2 : List Char) : ('-' :: r1 < '-' :: r2) ↔ r1 < r2 := by
  rw [list_lt_cons_iff]
  simp [lt_irrefl]

theorem digits2_map_lt_iff (a b : Nat) (ha : a ≤ 99) (hb : b ≤ 99) :
    ((digits2 a).map digitChar < (digits2 b).map digitChar) ↔ a < b := by
  have h := lex_digit_blocks (digits2 a) (digits2 b) [] [] rfl (digits2_bounds a) (digits2_bounds b)
  rw [List.append_nil, List.append_nil] at h
  rw [h, natOfDigits_digits2 a ha, natOfDigits_digits2 b hb]
  simp [not_list_lt_nil]

theorem dateString_lt_iff (y1 m1 d1 y2 m2 d2 : Nat)
    (hy1 : y1 ≤ 9999) (hy2 : y2 ≤ 9999) (hm1 : m1 ≤ 99) (hm2 : m2 ≤ 99)
    (hd1 : d1 ≤ 99) (hd2 : d2 ≤ 99) :
    (dateToString (y1, m1, d1) < dateToString (y2, m2, d2)) ↔
      (y1 < y2 ∨ (y1 = y2 ∧ (m1 < m2 ∨ (m1 = m2 ∧ d1 < d2)))) := by
  rw [String.lt_iff_toList_lt]
  show ((digits4 y1).map digitChar ++
      '-' :: ((digits2 m1).map digitChar ++ '-' :: (digits2 d1).map digitChar) <
    (digits4 y2).map digitChar ++
      '-' :: ((digits2 m2).map digitChar ++ '-' :: (digits2 d2).map digitChar)) ↔ _
  rw [lex_digit_blocks (digits4 y1) (digits4 y2) _ _ rfl (digits4_bounds y1) (digits4_bounds y2),
    natOfDigits_digits4 y1 hy1, natOfDigits_digits4 y2 hy2, digits4_inj y1 y2 hy1 hy2,
    dash_cons_lt_iff,
    lex_digit_blocks (digits2 m1) (digits2 m2) _ _ rfl (digits2_bounds m1) (digits2_bounds m2),
    natOfDigits_digits2 m1 hm1, natOfDigits_digits2 m2 hm2, digits2_inj m1 m2 hm1 hm2,
    dash_cons_lt_iff,
    digits2_map_lt_iff d1 d2 hd1 hd2]

/-! ### Helper lemmas: `strptime` accepts exactly the canonical rendering -/

theorem dash_not_mem_map_digitChar (l : List Nat) (h : ∀ d ∈ l, d ≤ 9) :
    '-' ∉ l.map digitChar := by
  intro hm
  obtain ⟨d, hd, he⟩ := List.mem_map.mp hm
  exact digitChar_ne_dash d (h d hd) he

theorem splitOnDash_no_dash (l : List Char) (h : '-' ∉ l) : splitOnDash l = [l] := by
  induction l with
  | nil => rfl
  | cons c r ih =>
    have hc : c ≠ '-' := fun hc => h (by simp [hc])
    have hr : '-' ∉ r := fun hr => h (by simp [hr])
    simp only [splitOnDash, if_neg hc, ih hr]

theorem splitOnDash_append (l rest : List Char) (h : '-' ∉ l) :
    splitOnDash (l ++ '-' :: rest) = l :: splitOnDash rest := by
  induction l with
  | nil => simp [splitOnDash]
  | cons c r ih =>
    have hc : c ≠ '-' := fun hc => h (by simp [hc])
    have hr : '-' ∉ r := fun hr => h (by simp [hr])
    simp only [List.cons_append, splitOnDash, if_neg hc, List.append_eq, ih hr]

theorem digitsVal_map_digitChar (l : List Nat) (hne : l ≠ []) (h : ∀ d ∈ l, d ≤ 9) :
    digitsVal? (l.map digitChar) = some (natOfDigits l) := by
  have hne' : (l.map digitChar).isEmpty = false := by
    cases l with
    | nil => exact absurd rfl hne
    | cons a r => rfl
  have hdig : (l.map digitChar).all Char.isDigit = true := by
    rw [List.all_eq_true]
    intro c hc
    obtain ⟨d, hd, rfl⟩ := List.mem_map.mp hc
    exact digitChar_isDigit d (h d hd)
  have hmap : (l.map digitChar).map charDigit = l := by
    rw [List.map_map]
    have h2 : ∀ d ∈ l, (charDigit ∘ digitChar) d = id d :=
      fun d hd => charDigit_digitChar d (h d hd)
    rw [List.map_congr_left h2, List.map_id]
  simp [digitsVal?, hne', hdig, hmap]

theorem daysInMonth_le (y m : Nat) : daysInMonth y m ≤ 31 := by
  unfold daysInMonth
  split_ifs <;> omega

theorem parseDate_dateToString (t : Date) (h : validTriple t = true) :
    parseDate (dateToString t) = some t := by
  rcases t with ⟨y, m, d⟩
  simp only [validTriple, Bool.and_eq_true, decide_eq_true_eq] at h
  obtain ⟨⟨⟨⟨⟨hy1, hy2⟩, hm1⟩, hm2⟩, hd1⟩, hd2⟩ := h
  have hsplit : splitOnDash (dateToString (y, m, d)).data =
      [(digits4 y).map digitChar, (digits2 m).map digitChar, (digits2 d).map digitChar] := by
    show splitOnDash ((digits4 y).map digitChar ++
      '-' :: ((digits2 m).map digitChar ++ '-' :: (digits2 d).map digitChar)) = _
    rw [splitOnDash_append _ _ (dash_not_mem_map_digitChar _ (digits4_bounds y)),
      splitOnDash_append _ _ (dash_not_mem_map_digitChar _ (digits2_bounds m)),
      splitOnDash_no_dash _ (dash_not_mem_map_digitChar _ (digits2_bounds d))]
  simp only [parseDate, hsplit,
    digitsVal_map_digitChar (digits4 y) (by simp [digits4]) (digits4_bounds y),
    digitsVal_map_digitChar (digits2 m) (by simp [digits2]) (digits2_bounds m),
    digitsVal_map_digitChar (digits2 d) (by simp [digits2]) (digits2_bounds d),
    natOfDigits_digits4 y hy2, natOfDigits_digits2 m (by omega),
    natOfDigits_digits2 d (by have := daysInMonth_le y m; omega)]
  rw [if_pos]
  exact ⟨by simp [digits4], hy1, by simp [digits2], hm1, hm2, by simp [digits2], hd1, hd2⟩

/-! ### Shared concrete-evaluation facts -/

theorem parseFloat_of_rep (s : String) (f : FloatRep) (h : parseFloatRep s = some f) :
    parseFloat s = some (floatVal f) := by simp [parseFloat, h]

theorem parseFloat_lit_10 : parseFloat "10" = some 10 := by
  rw [parseFloat_of_rep "10" ⟨false, 10, 0, 0⟩ (by decide)]
  norm_num [floatVal]

theorem parseFloat_lit_30 : parseFloat "30" = some 30 := by
  rw [parseFloat_of_rep "30" ⟨false, 30, 0, 0⟩ (by decide)]
  norm_num [floatVal]

theorem parseFloat_lit_5 : parseFloat "5" = some 5 := by
  rw [parseFloat_of_rep "5" ⟨false, 5, 0, 0⟩ (by decide)]
  norm_num [floatVal]

/-! ### The claims -/

/-- C1, counterexample: `add_expense` validates nothing.  Appending the
spec's own two rejection examples — the impossible date `2024-02-30` and the
negative amount `-5` — succeeds, and a subsequent `read_expenses` shows the
new row, contradicting `append(r) succeeds iff r.date is a valid calendar
date and r.amount >= 0, otherwise the store is unchanged`. -/
theorem claim1_counterexample :
    parseDate "2024-02-30" = none ∧
    (∃ q, parseFloat "-5" = some q ∧ q < 0) ∧
    read_expenses (add_expense ⟨"2024-02-30", "Food", "5", ""⟩ (init_file none)) ≠
      read_expenses (init_file none) ∧
    read_expenses (add_expense ⟨"2024-02-01", "Food", "-5", ""⟩ (init_file none)) ≠
      read_expenses (init_file none) := by
  refine ⟨by decide, ⟨-5, ?_, by norm_num⟩, by decide, by decide⟩
  rw [parseFloat_of_rep "-5" ⟨true, 5, 0, 0⟩ (by decide)]
  norm_num [floatVal]

/-- C1, amended: `add_expense` performs no validation at all: for every
record — valid or not — the append succeeds, durably changes the store, and
a subsequent `read_expenses` returns the prior sequence with the new row
appended. -/
theorem claim1_main (r : Row) (hdr : List String) (t : List (List String)) :
    read_expenses (add_expense r (some (hdr :: t))) =
      read_expenses (some (hdr :: t)) ++ [rowCells r] ∧
    add_expense r (some (hdr :: t)) ≠ some (hdr :: t) := by
  constructor
  · simp [add_expense, read_expenses]
  · intro hcontra
    simp only [add_expense, Option.some.injEq] at hcontra
    have := congrArg List.length hcontra
    simp at this

/-- C1, witness: the amended theorem applied to the invalid-date record on a
freshly initialized store. -/
theorem claim1_witness :
    read_expenses (add_expense ⟨"2024-02-30", "Food", "5", ""⟩ (some [canonicalHeader])) =
      read_expenses (some [canonicalHeader]) ++
        [rowCells ⟨"2024-02-30", "Food", "5", ""⟩] ∧
    add_expense ⟨"2024-02-30", "Food", "5", ""⟩ (some [canonicalHeader]) ≠
      some [canonicalHeader] :=
  claim1_main ⟨"2024-02-30", "Food", "5", ""⟩ canonicalHeader []

/-- C2, counterexample: on the spec's own example records the summary dict
keeps Python-dict insertion order — category `A` first — and is not ranked
by descending total. -/
theorem claim2_counterexample :
    summary_by_category none none
      [⟨"2024-01-01", "A", "10", ""⟩, ⟨"2024-01-02", "B", "30", ""⟩,
        ⟨"2024-01-03", "A", "5", ""⟩] =
      Except.ok [("A", (15 : ℚ)), ("B", 30)] ∧
    [("A", (15 : ℚ)), ("B", 30)] ≠ [("B", 30), ("A", 15)] := by
  constructor
  · rw [summary_by_category_eq none none none none rfl rfl _ (by decide),
      filterByDateRange_none_none]
    simp [summaryPure, upsert, amtOf, parseFloat_lit_10, parseFloat_lit_30, parseFloat_lit_5]
    norm_num
  · intro h
    have := List.head_eq_of_cons_eq h
    simp at this

/-- C2, amended: `summary_by_category` maps each category to its summed
amount, with entries in first-encountered (insertion) order — not ranked by
descending total. -/
theorem claim2_main (rows : List Row) (hv : ∀ r ∈ rows, validRow r = true) :
    ∃ out, summary_by_category none none rows = Except.ok out ∧
      out.map Prod.fst = firstKeys (rows.map Row.category) ∧
      (∀ c, (out.lookup c).getD 0 = categorySum c rows) ∧
      sumValues out = sumAmounts rows := by
  refine ⟨summaryPure rows, ?_, ?_, ?_, ?_⟩
  · rw [summary_by_category_eq none none none none rfl rfl rows hv,
      filterByDateRange_none_none]
  · exact keys_summaryPure rows
  · exact fun c => lookup_summaryPure c rows
  · exact sumValues_summaryPure rows

/-- C2, witness: the amended theorem applied to the spec's example records. -/
theorem claim2_witness :
    (∀ r ∈ [(⟨"2024-01-01", "A", "10", ""⟩ : Row), ⟨"2024-01-02", "B", "30", ""⟩,
      ⟨"2024-01-03", "A", "5", ""⟩], validRow r = true) ∧
    (∃ out, summary_by_category none none
        [(⟨"2024-01-01", "A", "10", ""⟩ : Row), ⟨"2024-01-02", "B", "30", ""⟩,
          ⟨"2024-01-03", "A", "5", ""⟩] = Except.ok out ∧
      out.map Prod.fst = firstKeys (["A", "B", "A"]) ∧
      (∀ c, (out.lookup c).getD 0 = categorySum c
        [(⟨"2024-01-01", "A", "10", ""⟩ : Row), ⟨"2024-01-02", "B", "30", ""⟩,
          ⟨"2024-01-03", "A", "5", ""⟩]) ∧
      sumValues out = sumAmounts
        [(⟨"2024-01-01", "A", "10", ""⟩ : Row), ⟨"2024-01-02", "B", "30", ""⟩,
          ⟨"2024-01-03", "A", "5", ""⟩]) :=
  ⟨by decide, claim2_main _ (by decide)⟩

/-- C3, counterexample: the amount `42.5` (whose `str` is `42.5`) is stored
verbatim as `42.5`, which is not a two-decimal rendering, although its value
equals that of the two-decimal text `42.50`. -/
theorem claim3_counterexample :
    read_expenses (add_expense ⟨"2024-01-15", "Groceries", "42.5", "weekly shop"⟩
      (init_file none)) = [["2024-01-15", "Groceries", "42.5", "weekly shop"]] ∧
    parseFloat "42.5" = some (85 / 2 : ℚ) ∧
    parseFloat "42.50" = some (85 / 2 : ℚ) ∧
    hasTwoDecimals "42.5" = false ∧
    ("42.5" : String) ≠ "42.50" := by
  refine ⟨by decide, ?_, ?_, by decide, by decide⟩
  · rw [parseFloat_of_rep "42.5" ⟨false, 425, 1, 0⟩ (by decide)]
    norm_num [floatVal]
  · rw [parseFloat_of_rep "42.50" ⟨false, 4250, 2, 0⟩ (by decide)]
    norm_num [floatVal]

/-- C3, amended: `add_expense` writes the amount cell exactly as given
(`str(amount)`), with no fixed two-decimal formatting: the appended row's
cells are the record's cells verbatim. -/
theorem claim3_main (r : Row) (hdr : List String) (t : List (List String)) :
    (read_expenses (add_expense r (some (hdr :: t)))).getLast? = some (rowCells r) := by
  simp [add_expense, read_expenses]

/-- C3, witness: the amended theorem applied to the `42.5` record on a
freshly initialized store. -/
theorem claim3_witness :
    (read_expenses (add_expense ⟨"2024-01-15", "Groceries", "42.5", "weekly shop"⟩
      (some [canonicalHeader]))).getLast? =
      some (rowCells ⟨"2024-01-15", "Groceries", "42.5", "weekly shop"⟩) :=
  claim3_main ⟨"2024-01-15", "Groceries", "42.5", "weekly shop"⟩ canonicalHeader []

/-- C4, counterexample: the header `init_file` writes ends in `description`,
not `note`. -/
theorem claim4_counterexample :
    init_file none = some [["date", "category", "amount", "description"]] ∧
    canonicalHeader ≠ ["date", "category", "amount", "note"] :=
  ⟨rfl, by decide⟩

/-- C4, amended: `init_file` creates the absent store with exactly the header
`date, category, amount, description`; on an existing store it changes
nothing and raises no error, and it is idempotent. -/
theorem claim4_main (s : State) :
    init_file none = some [["date", "category", "amount", "description"]] ∧
    (∀ f, init_file (some f) = some f) ∧
    init_file (init_file s) = init_file s := by
  refine ⟨rfl, fun f => rfl, ?_⟩
  cases s <;> rfl

/-- C4, witness: the amended theorem instantiated at the absent store. -/
theorem claim4_witness :
    init_file none = some [["date", "category", "amount", "description"]] ∧
    (∀ f, init_file (some f) = some f) ∧
    init_file (init_file none) = init_file none :=
  claim4_main none

/-- C5: the date-range filter fused into the query loops keeps exactly the
records with `start <= date <= end` (bounds optional and inclusive), in
original order: the kept subsequence is a sublist of the input, membership
is exactly the spec's bound condition, and on valid rows `total_expenses`
computes the sum over precisely that subsequence (and `summary_by_category`
its dict). -/
theorem claim5_main (rows : List Row) (sd ed : Option Date) (s? e? : Option String)
    (hs : relParseB s? sd = true) (he : relParseB e? ed = true) :
    (filterByDateRange rows sd ed).Sublist rows ∧
    (∀ r, r ∈ filterByDateRange rows sd ed ↔
      (r ∈ rows ∧ boundOkB sd ed (dateOf r) = true)) ∧
    ((∀ r ∈ rows, validRow r = true) →
      total_expenses s? e? rows =
        Except.ok (sumAmounts (filterByDateRange rows sd ed)) ∧
      summary_by_category s? e? rows =
        Except.ok (summaryPure (filterByDateRange rows sd ed))) := by
  refine ⟨List.filter_sublist rows, ?_, fun hv => ⟨?_, ?_⟩⟩
  · intro r
    rw [filterByDateRange, List.mem_filter, keepRow_eq_boundOkB]
  · exact total_expenses_eq s? e? sd ed hs he rows hv
  · exact summary_by_category_eq s? e? sd ed hs he rows hv

/-- C5, witness: the theorem applied to one concrete row and a concrete
lower bound. -/
theorem claim5_witness :
    total_expenses (some "2024-01-10") none [⟨"2024-01-15", "Food", "10", ""⟩] =
      Except.ok (sumAmounts (filterByDateRange [⟨"2024-01-15", "Food", "10", ""⟩]
        (some (2024, 1, 10)) none)) :=
  ((claim5_main [⟨"2024-01-15", "Food", "10", ""⟩] (some (2024, 1, 10)) none
    (some "2024-01-10") none (by decide) rfl).2.2 (by decide)).1

/-- C6: for valid calendar dates in canonical `YYYY-MM-DD` form, the
comparison the code performs on `strptime`-parsed values agrees exactly with
lexicographic comparison of the two strings (and `strptime` re-reads the
canonical form to the same triple). -/
theorem claim6_main (y1 m1 d1 y2 m2 d2 : Nat)
    (h1 : validTriple (y1, m1, d1) = true) (h2 : validTriple (y2, m2, d2) = true) :
    parseDate (dateToString (y1, m1, d1)) = some (y1, m1, d1) ∧
    (dateToString (y1, m1, d1) < dateToString (y2, m2, d2) ↔
      dateLtB (y1, m1, d1) (y2, m2, d2) = true) := by
  simp only [validTriple, Bool.and_eq_true, decide_eq_true_eq] at h1 h2
  obtain ⟨⟨⟨⟨⟨hy1, hy2⟩, hm1⟩, hm2⟩, hd1⟩, hd2⟩ := h1
  obtain ⟨⟨⟨⟨⟨hy1', hy2'⟩, hm1'⟩, hm2'⟩, hd1'⟩, hd2'⟩ := h2
  constructor
  · exact parseDate_dateToString (y1, m1, d1) (by
      simp only [validTriple, Bool.and_eq_true, decide_eq_true_eq]
      exact ⟨⟨⟨⟨⟨hy1, hy2⟩, hm1⟩, hm2⟩, hd1⟩, hd2⟩)
  · rw [dateString_lt_iff y1 m1 d1 y2 m2 d2 hy2 hy2' (by omega) (by omega)
      (by have := daysInMonth_le y1 m1; omega) (by have := daysInMonth_le y2 m2; omega)]
    simp [dateLtB]

/-- C6, witness: the equivalence evaluated at `2024-01-15 < 2024-02-03`. -/
theorem claim6_witness :
    validTriple (2024, 1, 15) = true ∧ validTriple (2024, 2, 3) = true ∧
    parseDate (dateToString (2024, 1, 15)) = some (2024, 1, 15) ∧
    dateToString (2024, 1, 15) < dateToString (2024, 2, 3) :=
  ⟨by decide, by decide,
    (claim6_main 2024 1 15 2024 2 3 (by decide) (by decide)).1,
    ((claim6_main 2024 1 15 2024 2 3 (by decide) (by decide)).2).mpr (by decide)⟩

/-- C7: on valid rows, over any common date-range restriction, the sum of
the summary's values equals the total; on no rows the total is `0` and the
summary is the empty dict. -/
theorem claim7_main (rows : List Row) (sd ed : Option Date) (s? e? : Option String)
    (hs : relParseB s? sd = true) (he : relParseB e? ed = true)
    (hv : ∀ r ∈ rows, validRow r = true) :
    (∃ t out, total_expenses s? e? rows = Except.ok t ∧
      summary_by_category s? e? rows = Except.ok out ∧ sumValues out = t) ∧
    total_expenses none none [] = Except.ok 0 ∧
    summary_by_category none none ([] : List Row) = Except.ok [] := by
  refine ⟨⟨sumAmounts (filterByDateRange rows sd ed),
    summaryPure (filterByDateRange rows sd ed), ?_, ?_, ?_⟩, rfl, rfl⟩
  · exact total_expenses_eq s? e? sd ed hs he rows hv
  · exact summary_by_category_eq s? e? sd ed hs he rows hv
  · exact sumValues_summaryPure _

/-- C7, witness: the theorem applied to two concrete rows with no bounds. -/
theorem claim7_witness :
    ∃ t out, total_expenses none none
        [(⟨"2024-01-15", "Food", "10", ""⟩ : Row), ⟨"2024-02-01", "Rent", "30", ""⟩] =
        Except.ok t ∧
      summary_by_category none none
        [(⟨"2024-01-15", "Food", "10", ""⟩ : Row), ⟨"2024-02-01", "Rent", "30", ""⟩] =
        Except.ok out ∧
      sumValues out = t :=
  (claim7_main
    [⟨"2024-01-15", "Food", "10", ""⟩, ⟨"2024-02-01", "Rent", "30", ""⟩]
    none none none none rfl rfl (by decide)).1

/-- C8, counterexample: a stored row with the non-numeric amount `abc` is
returned by `read_expenses` as ordinary data — the read raises nothing —
contradicting `reading ... propagates an error to the caller`. -/
theorem claim8_counterexample :
    parseFloat "abc" = none ∧
    read_expenses (some [canonicalHeader, ["2024-01-15", "Food", "abc", ""]]) =
      [["2024-01-15", "Food", "abc", ""]] := by
  refine ⟨?_, rfl⟩
  have h : parseFloatRep "abc" = none := by decide
  simp [parseFloat, h]

/-- C8, amended: `read_expenses` returns every stored row verbatim and never
raises; the aggregations are the ones that propagate an error whenever some
row is malformed (invalid date or non-numeric amount), rather than skipping
it. -/
theorem claim8_main :
    (∀ (hdr : List String) (rows : List (List String)),
      read_expenses (some (hdr :: rows)) = rows) ∧
    (∀ rows : List Row, (∃ r ∈ rows, validRow r = false) →
      ∃ err, total_expenses none none rows = Except.error err) ∧
    (∀ rows : List Row, (∃ r ∈ rows, validRow r = false) →
      ∃ err, summary_by_category none none rows = Except.error err) := by
  refine ⟨fun hdr rows => rfl, ?_, ?_⟩
  · rintro rows ⟨r, hr, hbad⟩
    cases htot : total_expenses none none rows with
    | error e => exact ⟨e, rfl⟩
    | ok v =>
      simp only [total_expenses] at htot
      have := total_loop_none_ok_valid rows 0 v htot r hr
      rw [this] at hbad
      cases hbad
  · rintro rows ⟨r, hr, hbad⟩
    cases hsum : summary_by_category none none rows with
    | error e => exact ⟨e, rfl⟩
    | ok v =>
      simp only [summary_by_category] at hsum
      have := summary_loop_none_ok_valid rows [] v hsum r hr
      rw [this] at hbad
      cases hbad

/-- C8, witness: the amended theorem applied to one malformed row. -/
theorem claim8_witness :
    ∃ err, total_expenses none none [⟨"2024-01-15", "Food", "abc", ""⟩] =
      Except.error err :=
  claim8_main.2.1 [⟨"2024-01-15", "Food", "abc", ""⟩]
    ⟨⟨"2024-01-15", "Food", "abc", ""⟩, by simp, by decide⟩

/-- C9: exporting the rows `read_expenses` returned and re-reading the file
through the same record format yields the same sequence of records,
field for field — including the empty ledger, where no file is written and
the re-read yields the empty sequence. -/
theorem claim9_main (rows : List Row) (h : ∀ r ∈ rows, cleanRow r = true) :
    readCsvFile (export_csv rows) = rows.map rowCells :=
  readCsvFile_export rows h

/-- C9, witness: a round trip through a record whose note cell contains the
delimiter and embedded quotes, plus the empty-ledger case. -/
theorem claim9_witness :
    readCsvFile (export_csv [⟨"2024-01-15", "Groceries", "42.50", "a, \"weekly\" shop"⟩]) =
      [⟨"2024-01-15", "Groceries", "42.50", "a, \"weekly\" shop"⟩].map rowCells ∧
    readCsvFile (export_csv []) = ([] : List Row).map rowCells :=
  ⟨claim9_main [⟨"2024-01-15", "Groceries", "42.50", "a, \"weekly\" shop"⟩] (by decide),
    claim9_main [] (by decide)⟩

/-- C10: when the store file does not exist, `read_expenses` returns the
empty sequence, raises nothing, and leaves the file system state unchanged
(the file is not created). -/
theorem claim10_main :
    read_expenses_op none = ([], none) ∧ read_expenses none = [] :=
  ⟨rfl, rfl⟩

end ET
